import Mathlib

/-!
Verification of the analytics core of the ETF dashboard (streamlit repository):
the OHLCV resampling pipeline of `src/app/pages/trend.py`, the moving-average
computation of the same page, the investment projection of
`src/app/pages/simulator.py`, and the error paths of the data-access functions
in `src/database/db_connection.py`.

Dates are modelled as calendar dates; prices and volumes as rationals.
-/

namespace EtfApp

/-- Calendar date as stored in the `trade_date` column of `etf_daily_prices`. -/
structure Date where
  year : ℕ
  month : ℕ
  day : ℕ
deriving DecidableEq, Repr

/-- Day count since 0000-03-01 of the proleptic Gregorian calendar (the standard
civil-from-days conversion). `dayNumber d % 7 = 2` holds exactly when `d` is a
Friday. Used to embed pandas `W-FRI` weekly binning. -/
def dayNumber (dt : Date) : ℕ :=
  let y := if dt.month ≤ 2 then dt.year - 1 else dt.year
  let era := y / 400
  let yoe := y % 400
  let mp := (dt.month + 9) % 12
  let doy := (153 * mp + 2) / 5 + (dt.day - 1)
  let doe := yoe * 365 + yoe / 4 - yoe / 100 + doy
  era * 146097 + doe

/-- The day number of the Friday ending the calendar week (Saturday .. Friday)
that contains day `n`: the least `f ≥ n` with `f % 7 = 2` (Friday). This is the
bin label pandas `resample('W-FRI')` assigns to day `n`. -/
def fridayOnOrAfter (n : ℕ) : ℕ := n + (9 - n % 7) % 7

/-- One row of `etf_daily_prices` as loaded by `get_etf_kline_data`:
a daily OHLCV price bar. -/
structure PriceBar where
  trade_date : Date
  «open» : ℚ
  high : ℚ
  low : ℚ
  close : ℚ
  volume : ℚ
deriving DecidableEq, Repr

/-- Weekly grouping key of a bar under `df.resample('W-FRI')`:
the Friday ending the bar's calendar week. -/
def weekKey (b : PriceBar) : ℕ := fridayOnOrAfter (dayNumber b.trade_date)

/-- Monthly grouping key of a bar under `df.resample('M')`:
a linear index of the bar's calendar month. -/
def monthKey (b : PriceBar) : ℕ := b.trade_date.year * 12 + (b.trade_date.month - 1)

/-- Date order on price bars (the order `sort_index` sorts by). -/
def dle (a b : PriceBar) : Prop := dayNumber a.trade_date ≤ dayNumber b.trade_date

instance : DecidableRel dle := fun a b => Nat.decLe _ _

/-- Maximum of a list, `none` on the empty list (pandas `max` aggregation of a
group: `NaN` when the group is empty). -/
def listMax {α : Type} [LinearOrder α] : List α → Option α
  | [] => none
  | x :: xs =>
    match listMax xs with
    | none => some x
    | some m => some (max x m)

/-- Minimum of a list, `none` on the empty list (pandas `min` aggregation of a
group: `NaN` when the group is empty). -/
def listMin {α : Type} [LinearOrder α] : List α → Option α
  | [] => none
  | x :: xs =>
    match listMin xs with
    | none => some x
    | some m => some (min x m)

/-- A row of `df_resampled` before `dropna()`: pandas emits one row per period
bin between the first and last key; `first`, `max`, `min`, `last` of an empty
bin are `NaN` (here `none`) while `sum` of an empty bin is `0`. -/
structure RawBar where
  period : ℕ
  «open» : Option ℚ
  high : Option ℚ
  low : Option ℚ
  close : Option ℚ
  volume : ℚ
deriving DecidableEq, Repr

/-- The `.agg({'open':'first','high':'max','low':'min','close':'last',
'volume':'sum'})` applied to the bars of one period bin (in index order). -/
def aggGroup (p : ℕ) (g : List PriceBar) : RawBar :=
  { period := p
    «open» := (g.map (·.«open»)).head?
    high := listMax (g.map (·.high))
    low := listMin (g.map (·.low))
    close := (g.map (·.close)).getLast?
    volume := (g.map (·.volume)).sum }

/-- Embedding of `df.resample(rule).agg({...})`: bins run from the least to the
greatest key present, spaced `step` apart (`step = 7` day numbers for `W-FRI`,
`step = 1` month index for `M`); each row aggregates the bars whose key equals
the bin's key. An empty frame resamples to an empty frame. -/
def resampleBy (key : PriceBar → ℕ) (step : ℕ) (bars : List PriceBar) : List RawBar :=
  match listMin (bars.map key), listMax (bars.map key) with
  | some kmin, some kmax =>
      (List.range ((kmax - kmin) / step + 1)).map
        (fun i => aggGroup (kmin + i * step) (bars.filter (fun b => key b = kmin + i * step)))
  | _, _ => []

/-- An output bar of the trend page after `dropna()`: a fully populated
aggregated OHLCV row for one period. -/
structure AggBar where
  period : ℕ
  «open» : ℚ
  high : ℚ
  low : ℚ
  close : ℚ
  volume : ℚ
deriving DecidableEq, Repr

/-- One row under `dropna()`: kept (fully populated) exactly when no field is
missing, dropped otherwise. -/
def dropnaRow (r : RawBar) : Option AggBar :=
  match r.«open», r.high, r.low, r.close with
  | some o, some h, some l, some c =>
      some { period := r.period, «open» := o, high := h, low := l, close := c,
             volume := r.volume }
  | _, _, _, _ => none

/-- `df_resampled.dropna()`: keep exactly the rows with no missing value. -/
def dropna (rows : List RawBar) : List AggBar :=
  rows.filterMap dropnaRow

/-- The weekly branch of the trend page: `df.resample('W-FRI').agg({...})`
followed by `dropna()` (trend.py lines 75-99). -/
def resampleWeekly (df : List PriceBar) : List AggBar :=
  dropna (resampleBy weekKey 7 df)

/-- The monthly branch of the trend page: `df.resample('M').agg({...})`
followed by `dropna()` (trend.py lines 85-99). -/
def resampleMonthly (df : List PriceBar) : List AggBar :=
  dropna (resampleBy monthKey 1 df)

/-- The daily branch of the trend page: `df_resampled = df` (trend.py line 96);
the subsequent `dropna()` removes nothing since daily bars carry no missing
values. -/
def resampleDaily (df : List PriceBar) : List PriceBar := df

example : dayNumber ⟨2024, 1, 5⟩ % 7 = 2 := by decide
example : dayNumber ⟨1970, 1, 1⟩ = 719468 := by decide
example : fridayOnOrAfter (dayNumber ⟨2024, 1, 6⟩) = dayNumber ⟨2024, 1, 12⟩ := by decide

/-- The moving-average windows requested by the trend page
(`ma_days = [5, 20, 60]`, trend.py line 150). -/
def ma_days : List ℕ := [5, 20, 60]

/-- Embedding of `df_final['close'].rolling(window=days).mean()`
(trend.py line 151): entry `i` is the mean of the `window` closes ending at
index `i`, and `none` (pandas `NaN`) while fewer than `window` closes of
history exist. -/
def movingAverage (closes : List ℚ) (window : ℕ) : List (Option ℚ) :=
  (List.range closes.length).map fun i =>
    if window ≤ i + 1 then
      some (((closes.drop (i + 1 - window)).take window).sum / (window : ℚ))
    else
      none

example : movingAverage [2, 4, 6] 2 = [none, some 3, some 5] := by
  norm_num [movingAverage, List.range_succ]

example : movingAverage [2, 4, 6] 5 = [none, none, none] := by
  norm_num [movingAverage, List.range_succ]

/-- The two investment modes offered by the simulator page's
`investment_type` radio widget. -/
inductive InvestmentType
  | lumpSum
  | periodicMonthly
deriving DecidableEq, Repr

/-- The result of one simulator run (simulator.py lines 113-135): the invested
cost, the projected final value, the absolute return, the percentage return,
and whether the page issued the `st.warning` disclosing that the
periodic-monthly figure is a lump-sum approximation. -/
structure Projection where
  total_investment_cost : ℚ
  final_value : ℚ
  total_return_value : ℚ
  return_pct_calc : ℚ
  warned : Bool
deriving DecidableEq, Repr

/-- The simulator's `PERIOD_MAP`: UI labels to holding periods in years. -/
def PERIOD_MAP : List (String × ℕ) := [("1年", 1), ("3年", 3), ("10年", 10)]

/-- Embedding of the arithmetic of the simulator's projection computation
(simulator.py lines 111-135). Periodic monthly: `st.warning` is issued, cost
is `amount * 12 * years` and the final value compounds the whole cost from day
one. Lump sum: cost is `amount`. In both branches
`final_value = cost * (1 + cagr) ^ years`,
`total_return_value = final_value - cost` and
`return_pct_calc = total_return_value / cost * 100`. The source performs no
parameter validation. This definition uses the total rational division
(`x / 0 = 0`), so it models the computation only where
`total_investment_cost ≠ 0`; Python instead raises `ZeroDivisionError` at the
`return_pct_calc` division when the cost is zero, which
`projectInvestmentRun` below restores. -/
def projectInvestment (ty : InvestmentType) (amount : ℚ) (cagr : ℚ) (years : ℕ) :
    Projection :=
  match ty with
  | .periodicMonthly =>
      let cost : ℚ := amount * 12 * (years : ℚ)
      let fv : ℚ := cost * (1 + cagr) ^ years
      { total_investment_cost := cost
        final_value := fv
        total_return_value := fv - cost
        return_pct_calc := (fv - cost) / cost * 100
        warned := true }
  | .lumpSum =>
      let cost : ℚ := amount
      let fv : ℚ := cost * (1 + cagr) ^ years
      { total_investment_cost := cost
        final_value := fv
        total_return_value := fv - cost
        return_pct_calc := (fv - cost) / cost * 100
        warned := false }

example : (projectInvestment .lumpSum 100000 (1/10) 3).final_value = 133100 := by
  norm_num [projectInvestment]

/-- The runtime error Python raises in the simulator's projection block when
`total_investment_cost` is zero. -/
inductive PyError
  | zeroDivisionError
deriving DecidableEq, Repr

/-- Embedding of the simulator's projection computation including its failure
path: both branches compute the same cost and values as `projectInvestment`,
but the division `(total_return_value / total_investment_cost) * 100`
(simulator.py line 135) raises `ZeroDivisionError` when the invested cost is
zero (periodic mode with `years = 0`, lump sum with `amount = 0`), so nothing
is returned in that case. -/
def projectInvestmentRun (ty : InvestmentType) (amount cagr : ℚ) (years : ℕ) :
    Except PyError Projection :=
  if (projectInvestment ty amount cagr years).total_investment_cost = 0 then
    .error .zeroDivisionError
  else
    .ok (projectInvestment ty amount cagr years)

example : projectInvestmentRun .periodicMonthly 5000 (1/10) 0
    = .error PyError.zeroDivisionError := by
  norm_num [projectInvestmentRun, projectInvestment]

/-- One row of the `etf_backtests` table as read by
`get_etf_backtest_metrics`. -/
structure BacktestMetricsRow where
  cagr : ℚ
  sharpe_ratio : ℚ
  max_drawdown : ℚ
  total_return : ℚ
  volatility : ℚ
deriving DecidableEq, Repr

/-- Embedding of `db_connection.get_etf_backtest_metrics` (lines 248-295). The
database query either succeeds with a list of rows or raises; the function
returns the first row's metrics, `{}` (here `none`) when no row matches, and
-- crucially -- catches any exception, logs it, and returns `{}` as well. -/
def get_etf_backtest_metrics (queryResult : Except String (List BacktestMetricsRow)) :
    Option BacktestMetricsRow :=
  match queryResult with
  | .ok [] => none
  | .ok (r :: _) => some r
  | .error _ => none

/-- Embedding of `db_connection.get_etf_kline_data` (lines 131-182). The query
either succeeds with a list of daily bars or raises; on success the rows are
returned, and any exception is caught, logged, and replaced by an empty
DataFrame (here `[]`). -/
def get_etf_kline_data (queryResult : Except String (List PriceBar)) : List PriceBar :=
  match queryResult with
  | .ok rows => rows
  | .error _ => []

theorem dle_refl (a : PriceBar) : dle a a := Nat.le_refl _

theorem listMax_eq_none {α : Type} [LinearOrder α] {l : List α}
    (h : listMax l = none) : l = [] := by
  cases l with
  | nil => rfl
  | cons x xs =>
    simp only [listMax] at h
    cases hx : listMax xs <;> rw [hx] at h <;> exact Option.noConfusion h

theorem listMax_of_ne_nil {α : Type} [LinearOrder α] {l : List α}
    (h : l ≠ []) : ∃ m, listMax l = some m := by
  cases hl : listMax l with
  | none => exact absurd (listMax_eq_none hl) h
  | some m => exact ⟨m, rfl⟩

theorem listMax_mem {α : Type} [LinearOrder α] {l : List α} {m : α}
    (h : listMax l = some m) : m ∈ l := by
  induction l generalizing m with
  | nil => exact Option.noConfusion h
  | cons x xs ih =>
    simp only [listMax] at h
    cases hx : listMax xs with
    | none =>
      rw [hx] at h
      cases h
      exact List.mem_cons_self x xs
    | some m' =>
      rw [hx] at h
      cases h
      rcases max_choice x m' with h1 | h1 <;> rw [h1]
      · exact List.mem_cons_self x xs
      · exact List.mem_cons_of_mem x (ih hx)

theorem le_listMax {α : Type} [LinearOrder α] {l : List α} {m : α}
    (h : listMax l = some m) : ∀ x ∈ l, x ≤ m := by
  induction l generalizing m with
  | nil => exact Option.noConfusion h
  | cons a xs ih =>
    simp only [listMax] at h
    cases hx : listMax xs with
    | none =>
      rw [hx] at h
      cases h
      have hxs := listMax_eq_none hx
      subst hxs
      intro x hxm
      rcases List.mem_singleton.mp hxm with rfl
      exact le_refl _
    | some m' =>
      rw [hx] at h
      cases h
      intro x hxm
      rcases List.mem_cons.mp hxm with rfl | hmem
      · exact le_max_left _ _
      · exact le_trans (ih hx x hmem) (le_max_right _ _)

theorem listMin_eq_none {α : Type} [LinearOrder α] {l : List α}
    (h : listMin l = none) : l = [] := by
  cases l with
  | nil => rfl
  | cons x xs =>
    simp only [listMin] at h
    cases hx : listMin xs <;> rw [hx] at h <;> exact Option.noConfusion h

theorem listMin_of_ne_nil {α : Type} [LinearOrder α] {l : List α}
    (h : l ≠ []) : ∃ m, listMin l = some m := by
  cases hl : listMin l with
  | none => exact absurd (listMin_eq_none hl) h
  | some m => exact ⟨m, rfl⟩

theorem listMin_mem {α : Type} [LinearOrder α] {l : List α} {m : α}
    (h : listMin l = some m) : m ∈ l := by
  induction l generalizing m with
  | nil => exact Option.noConfusion h
  | cons x xs ih =>
    simp only [listMin] at h
    cases hx : listMin xs with
    | none =>
      rw [hx] at h
      cases h
      exact List.mem_cons_self x xs
    | some m' =>
      rw [hx] at h
      cases h
      rcases min_choice x m' with h1 | h1 <;> rw [h1]
      · exact List.mem_cons_self x xs
      · exact List.mem_cons_of_mem x (ih hx)

theorem listMin_le {α : Type} [LinearOrder α] {l : List α} {m : α}
    (h : listMin l = some m) : ∀ x ∈ l, m ≤ x := by
  induction l generalizing m with
  | nil => exact Option.noConfusion h
  | cons a xs ih =>
    simp only [listMin] at h
    cases hx : listMin xs with
    | none =>
      rw [hx] at h
      cases h
      have hxs := listMin_eq_none hx
      subst hxs
      intro x hxm
      rcases List.mem_singleton.mp hxm with rfl
      exact le_refl _
    | some m' =>
      rw [hx] at h
      cases h
      intro x hxm
      rcases List.mem_cons.mp hxm with rfl | hmem
      · exact min_le_left _ _
      · exact le_trans (min_le_right _ _) (ih hx x hmem)

theorem head?_map_pairwise {g : List PriceBar} {f : PriceBar → ℚ} {v : ℚ}
    (hpw : g.Pairwise dle) (hh : (g.map f).head? = some v) :
    ∃ b ∈ g, f b = v ∧ ∀ x ∈ g, dle b x := by
  cases g with
  | nil => exact Option.noConfusion hh
  | cons b rest =>
    refine ⟨b, List.mem_cons_self b rest, ?_, ?_⟩
    · have := hh
      simp only [List.map_cons, List.head?_cons, Option.some.injEq] at this
      exact this
    · intro x hx
      rcases List.mem_cons.mp hx with rfl | hmem
      · exact dle_refl x
      · exact (List.pairwise_cons.mp hpw).1 x hmem

theorem getLast?_map_pairwise {g : List PriceBar} {f : PriceBar → ℚ} {v : ℚ}
    (hpw : g.Pairwise dle) (hh : (g.map f).getLast? = some v) :
    ∃ b ∈ g, f b = v ∧ ∀ x ∈ g, dle x b := by
  induction g with
  | nil => exact Option.noConfusion hh
  | cons b rest ih =>
    cases rest with
    | nil =>
      refine ⟨b, List.mem_singleton.mpr rfl, ?_, ?_⟩
      · have := hh
        simp only [List.map_cons, List.map_nil, List.getLast?_singleton,
          Option.some.injEq] at this
        exact this
      · intro x hx
        rcases List.mem_singleton.mp hx with rfl
        exact dle_refl x
    | cons b' rest' =>
      have hh' : ((b' :: rest').map f).getLast? = some v := by
        simpa [List.getLast?_cons_cons] using hh
      rcases ih (List.pairwise_cons.mp hpw).2 hh' with ⟨c, hc, hfc, hmax⟩
      refine ⟨c, List.mem_cons_of_mem b hc, hfc, ?_⟩
      intro x hx
      rcases List.mem_cons.mp hx with rfl | hmem
      · exact (List.pairwise_cons.mp hpw).1 c hc
      · exact hmax x hmem

theorem dropnaRow_period {r : RawBar} {a : AggBar} (h : dropnaRow r = some a) :
    a.period = r.period := by
  rcases r with ⟨p, o, hi, lo, c, v⟩
  cases o <;> cases hi <;> cases lo <;> cases c <;>
    first
      | exact Option.noConfusion h
      | (cases h; rfl)

theorem dropnaRow_fields {r : RawBar} {a : AggBar} (h : dropnaRow r = some a) :
    r.«open» = some a.«open» ∧ r.high = some a.high ∧ r.low = some a.low ∧
      r.close = some a.close ∧ r.volume = a.volume ∧ r.period = a.period := by
  rcases r with ⟨p, o, hi, lo, c, v⟩
  cases o <;> cases hi <;> cases lo <;> cases c <;>
    first
      | exact Option.noConfusion h
      | (cases h; exact ⟨rfl, rfl, rfl, rfl, rfl, rfl⟩)

theorem dropnaRow_none {r : RawBar} (h : dropnaRow r = none) :
    r.«open» = none ∨ r.high = none ∨ r.low = none ∨ r.close = none := by
  rcases r with ⟨p, o, hi, lo, c, v⟩
  cases o <;> cases hi <;> cases lo <;> cases c <;>
    first
      | exact Option.noConfusion h
      | exact Or.inl rfl
      | exact Or.inr (Or.inl rfl)
      | exact Or.inr (Or.inr (Or.inl rfl))
      | exact Or.inr (Or.inr (Or.inr rfl))

theorem dropnaRow_of_some {r : RawBar} {o h l c : ℚ}
    (ho : r.«open» = some o) (hh : r.high = some h) (hl : r.low = some l)
    (hc : r.close = some c) :
    dropnaRow r = some { period := r.period, «open» := o, high := h, low := l,
                          close := c, volume := r.volume } := by
  rcases r with ⟨p, o₀, h₀, l₀, c₀, v⟩
  simp only at ho hh hl hc
  subst ho hh hl hc
  rfl

theorem mem_dropna {rows : List RawBar} {a : AggBar} :
    a ∈ dropna rows ↔ ∃ r ∈ rows, dropnaRow r = some a :=
  List.mem_filterMap

theorem dropna_periods_sublist (rows : List RawBar) :
    ((dropna rows).map (·.period)).Sublist (rows.map (·.period)) := by
  induction rows with
  | nil => simp [dropna]
  | cons r rs ih =>
    rw [dropna, List.filterMap_cons]
    cases hfr : dropnaRow r with
    | none =>
      rw [List.map_cons]
      exact List.Sublist.cons _ ih
    | some a =>
      rw [List.map_cons, List.map_cons, dropnaRow_period hfr]
      exact List.Sublist.cons₂ _ ih

theorem mem_resampleBy {key : PriceBar → ℕ} {step : ℕ} {bars : List PriceBar} {r : RawBar}
    (h : r ∈ resampleBy key step bars) :
    r = aggGroup r.period (bars.filter (fun b => key b = r.period)) := by
  unfold resampleBy at h
  cases hmin : listMin (bars.map key) with
  | none => rw [hmin] at h; simp at h
  | some kmin =>
    cases hmax : listMax (bars.map key) with
    | none => rw [hmin, hmax] at h; simp at h
    | some kmax =>
      rw [hmin, hmax] at h
      rcases List.mem_map.mp h with ⟨i, _, rfl⟩
      rfl

theorem resampleBy_covers {key : PriceBar → ℕ} {step : ℕ} {bars : List PriceBar} {p : ℕ}
    (hstep : 0 < step)
    (hmod : ∀ x y : PriceBar, key x % step = key y % step)
    (hne : bars.filter (fun b => key b = p) ≠ []) :
    aggGroup p (bars.filter (fun b => key b = p)) ∈ resampleBy key step bars := by
  rcases List.exists_mem_of_ne_nil _ hne with ⟨b, hb⟩
  have hbbars : b ∈ bars := (List.mem_filter.mp hb).1
  have hkb : key b = p := by
    have h2 := (List.mem_filter.mp hb).2
    simpa using h2
  have hmapne : bars.map key ≠ [] := by
    simp only [ne_eq, List.map_eq_nil_iff]
    intro hcon
    rw [hcon] at hbbars
    exact List.not_mem_nil b hbbars
  rcases listMin_of_ne_nil hmapne with ⟨kmin, hmin⟩
  rcases listMax_of_ne_nil hmapne with ⟨kmax, hmax⟩
  have hple : kmin ≤ p := hkb ▸ listMin_le hmin _ (List.mem_map_of_mem key hbbars)
  have hpge : p ≤ kmax := hkb ▸ le_listMax hmax _ (List.mem_map_of_mem key hbbars)
  rcases List.mem_map.mp (listMin_mem hmin) with ⟨b0, _, hkb0⟩
  have hres : p % step = kmin % step := by
    rw [← hkb, ← hkb0]
    exact hmod b b0
  rcases Nat.dvd_of_mod_eq_zero (Nat.sub_mod_eq_zero_of_mod_eq hres) with ⟨c, hc⟩
  have hp : p = kmin + c * step := by
    rw [← Nat.add_sub_cancel' hple, hc, Nat.mul_comm]
  have hcn : c < (kmax - kmin) / step + 1 := by
    have h1 : step * c ≤ kmax - kmin := by
      have h2 : p - kmin ≤ kmax - kmin := Nat.sub_le_sub_right hpge kmin
      rw [hc] at h2
      exact h2
    have h3 : c ≤ (kmax - kmin) / step :=
      (Nat.le_div_iff_mul_le hstep).mpr (by rw [Nat.mul_comm]; exact h1)
    exact Nat.lt_succ_of_le h3
  unfold resampleBy
  rw [hmin, hmax]
  refine List.mem_map.mpr ⟨c, List.mem_range.mpr hcn, ?_⟩
  rw [hp]

theorem resampleBy_periods_nodup (key : PriceBar → ℕ) (step : ℕ) (bars : List PriceBar)
    (hstep : 0 < step) :
    ((resampleBy key step bars).map (·.period)).Nodup := by
  unfold resampleBy
  cases listMin (bars.map key) with
  | none => simp
  | some kmin =>
    cases listMax (bars.map key) with
    | none => simp
    | some kmax =>
      rw [List.map_map]
      refine List.Nodup.map ?_ (List.nodup_range _)
      intro i j hij
      have hij' : kmin + i * step = kmin + j * step := hij
      have h2 : i * step = j * step := Nat.add_left_cancel hij'
      exact Nat.eq_of_mul_eq_mul_right hstep h2

theorem mem_dropna_resampleBy {key : PriceBar → ℕ} {step : ℕ} {bars : List PriceBar}
    {a : AggBar} (h : a ∈ dropna (resampleBy key step bars)) :
    ((bars.filter (fun b => key b = a.period)).map (·.«open»)).head? = some a.«open» ∧
    listMax ((bars.filter (fun b => key b = a.period)).map (·.high)) = some a.high ∧
    listMin ((bars.filter (fun b => key b = a.period)).map (·.low)) = some a.low ∧
    ((bars.filter (fun b => key b = a.period)).map (·.close)).getLast? = some a.close ∧
    a.volume = ((bars.filter (fun b => key b = a.period)).map (·.volume)).sum := by
  rcases mem_dropna.mp h with ⟨r, hr, hfr⟩
  have hstruct := mem_resampleBy hr
  rcases dropnaRow_fields hfr with ⟨ho, hh, hl, hc, hv, hp⟩
  rw [hp] at hstruct
  rw [hstruct] at ho hh hl hc hv
  simp only [aggGroup] at ho hh hl hc hv
  exact ⟨ho, hh, hl, hc, hv.symm⟩

/-- The non-daily time scales of the trend page's sidebar selector. -/
inductive Granularity
  | weekly
  | monthly
deriving DecidableEq, Repr

/-- Grouping key used by each time scale. -/
def keyAt : Granularity → PriceBar → ℕ
  | .weekly => weekKey
  | .monthly => monthKey

/-- Bin spacing of each time scale: 7 day numbers per week, 1 month index per
month. -/
def stepAt : Granularity → ℕ
  | .weekly => 7
  | .monthly => 1

/-- The resampling branch run for each non-daily time scale. -/
def resampleAt : Granularity → List PriceBar → List AggBar
  | .weekly => resampleWeekly
  | .monthly => resampleMonthly

theorem resampleAt_eq (g : Granularity) (bars : List PriceBar) :
    resampleAt g bars = dropna (resampleBy (keyAt g) (stepAt g) bars) := by
  cases g <;> rfl

theorem stepAt_pos (g : Granularity) : 0 < stepAt g := by
  cases g <;> decide

theorem weekKey_mod (b : PriceBar) : weekKey b % 7 = 2 := by
  unfold weekKey fridayOnOrAfter
  omega

theorem keyAt_mod (g : Granularity) (x y : PriceBar) :
    keyAt g x % stepAt g = keyAt g y % stepAt g := by
  cases g
  · show weekKey x % 7 = weekKey y % 7
    rw [weekKey_mod, weekKey_mod]
  · show monthKey x % 1 = monthKey y % 1
    rw [Nat.mod_one, Nat.mod_one]

theorem aggGroup_none_empty {p : ℕ} {g : List PriceBar}
    (h : (aggGroup p g).«open» = none ∨ (aggGroup p g).high = none ∨
         (aggGroup p g).low = none ∨ (aggGroup p g).close = none) :
    g = [] := by
  rcases g with _ | ⟨x, xs⟩
  · rfl
  · exfalso
    simp only [aggGroup] at h
    rcases h with h | h | h | h
    · simp at h
    · rcases listMax_of_ne_nil (l := (x :: xs).map (·.high)) (by simp) with ⟨m, hm⟩
      rw [hm] at h
      exact Option.noConfusion h
    · rcases listMin_of_ne_nil (l := (x :: xs).map (·.low)) (by simp) with ⟨m, hm⟩
      rw [hm] at h
      exact Option.noConfusion h
    · rw [List.getLast?_eq_getLast_of_ne_nil (by simp)] at h
      exact Option.noConfusion h

theorem sum_map_ite_not_mem {K : List ℕ} {k : ℕ} (hk : k ∉ K) (v : ℚ) :
    (K.map (fun p => if k = p then v else 0)).sum = 0 := by
  induction K with
  | nil => rfl
  | cons q qs ih =>
    have hkq : k ≠ q := fun h => hk (h ▸ List.mem_cons_self q qs)
    have hkqs : k ∉ qs := fun h => hk (List.mem_cons_of_mem q h)
    simp [hkq, ih hkqs]

theorem sum_map_ite_mem {K : List ℕ} {k : ℕ} (hnd : K.Nodup) (hk : k ∈ K) (v : ℚ) :
    (K.map (fun p => if k = p then v else 0)).sum = v := by
  induction K with
  | nil => cases hk
  | cons q qs ih =>
    rcases List.mem_cons.mp hk with rfl | hmem
    · have hnotin : k ∉ qs := (List.nodup_cons.mp hnd).1
      simp [sum_map_ite_not_mem hnotin]
    · have hkq : k ≠ q := by
        rintro rfl
        exact (List.nodup_cons.mp hnd).1 hmem
      simp [hkq, ih (List.nodup_cons.mp hnd).2 hmem]

theorem sum_map_add_split (K : List ℕ) (f g : ℕ → ℚ) :
    (K.map (fun p => f p + g p)).sum = (K.map f).sum + (K.map g).sum := by
  induction K with
  | nil => simp
  | cons q qs ih =>
    simp only [List.map_cons, List.sum_cons, ih]
    ring

theorem sum_groups (key : PriceBar → ℕ) (K : List ℕ) (hnd : K.Nodup)
    (bars : List PriceBar) (hcov : ∀ b ∈ bars, key b ∈ K) :
    (K.map (fun p => ((bars.filter (fun b => key b = p)).map (·.volume)).sum)).sum
      = (bars.map (·.volume)).sum := by
  induction bars with
  | nil => simp
  | cons b bs ih =>
    have hsplit : ∀ p : ℕ,
        ((List.filter (fun x => decide (key x = p)) (b :: bs)).map (·.volume)).sum
          = (if key b = p then b.volume else 0)
            + ((List.filter (fun x => decide (key x = p)) bs).map (·.volume)).sum := by
      intro p
      by_cases hbp : key b = p
      · simp [List.filter_cons, hbp]
      · simp [List.filter_cons, hbp]
    calc (K.map fun p =>
            ((List.filter (fun x => decide (key x = p)) (b :: bs)).map (·.volume)).sum).sum
        = (K.map fun p => (if key b = p then b.volume else 0)
            + ((List.filter (fun x => decide (key x = p)) bs).map (·.volume)).sum).sum := by
          exact congrArg List.sum (List.map_congr_left fun p _ => hsplit p)
      _ = (K.map fun p => if key b = p then b.volume else 0).sum
            + (K.map fun p =>
                ((List.filter (fun x => decide (key x = p)) bs).map (·.volume)).sum).sum :=
          sum_map_add_split K _ _
      _ = b.volume + (bs.map (·.volume)).sum := by
          rw [sum_map_ite_mem hnd (hcov b (List.mem_cons_self b bs)),
              ih (fun x hx => hcov x (List.mem_cons_of_mem b hx))]
      _ = ((b :: bs).map (·.volume)).sum := by simp

theorem mem_bins_of_range {step kmin kmax p : ℕ} (hstep : 0 < step)
    (hple : kmin ≤ p) (hpge : p ≤ kmax) (hres : p % step = kmin % step) :
    p ∈ (List.range ((kmax - kmin) / step + 1)).map (fun i => kmin + i * step) := by
  rcases Nat.dvd_of_mod_eq_zero (Nat.sub_mod_eq_zero_of_mod_eq hres) with ⟨c, hc⟩
  have hp : p = kmin + c * step := by
    rw [← Nat.add_sub_cancel' hple, hc, Nat.mul_comm]
  have hcn : c < (kmax - kmin) / step + 1 := by
    have h1 : step * c ≤ kmax - kmin := by
      have h2 : p - kmin ≤ kmax - kmin := Nat.sub_le_sub_right hpge kmin
      rw [hc] at h2
      exact h2
    exact Nat.lt_succ_of_le
      ((Nat.le_div_iff_mul_le hstep).mpr (by rw [Nat.mul_comm]; exact h1))
  exact List.mem_map.mpr ⟨c, List.mem_range.mpr hcn, hp.symm⟩

theorem bins_nodup (kmin step n : ℕ) (hstep : 0 < step) :
    ((List.range n).map (fun i => kmin + i * step)).Nodup :=
  List.Nodup.map
    (fun i j hij => Nat.eq_of_mul_eq_mul_right hstep (Nat.add_left_cancel hij))
    (List.nodup_range n)

theorem dropna_volume_sum (rows : List RawBar)
    (h0 : ∀ r ∈ rows, dropnaRow r = none → r.volume = 0) :
    ((dropna rows).map (·.volume)).sum = (rows.map (·.volume)).sum := by
  induction rows with
  | nil => rfl
  | cons r rs ih =>
    rw [dropna, List.filterMap_cons]
    cases hfr : dropnaRow r with
    | none =>
      have hv : r.volume = 0 := h0 r (List.mem_cons_self r rs) hfr
      rw [List.map_cons, List.sum_cons, hv, zero_add]
      exact ih (fun x hx => h0 x (List.mem_cons_of_mem r hx))
    | some a =>
      have hv : r.volume = a.volume := (dropnaRow_fields hfr).2.2.2.2.1
      rw [List.map_cons, List.map_cons, List.sum_cons, List.sum_cons, ← hv]
      exact congrArg (r.volume + ·) (ih (fun x hx => h0 x (List.mem_cons_of_mem r hx)))

theorem resampleBy_volume_sum (key : PriceBar → ℕ) (step : ℕ) (bars : List PriceBar)
    (hstep : 0 < step) (hmod : ∀ x y : PriceBar, key x % step = key y % step) :
    ((resampleBy key step bars).map (·.volume)).sum = (bars.map (·.volume)).sum := by
  unfold resampleBy
  cases hmin : listMin (bars.map key) with
  | none =>
    have hb : bars = [] := List.map_eq_nil_iff.mp (listMin_eq_none hmin)
    subst hb
    simp
  | some kmin =>
    have hne : bars.map key ≠ [] := by
      intro hcon
      rw [hcon] at hmin
      exact Option.noConfusion hmin
    cases hmax : listMax (bars.map key) with
    | none =>
      rcases listMax_of_ne_nil hne with ⟨m, hm⟩
      rw [hm] at hmax
      exact Option.noConfusion hmax
    | some kmax =>
      rw [List.map_map]
      rcases List.mem_map.mp (listMin_mem hmin) with ⟨b0, _, hkb0⟩
      have hcov : ∀ b ∈ bars,
          key b ∈ (List.range ((kmax - kmin) / step + 1)).map (fun i => kmin + i * step) := by
        intro b hb
        refine mem_bins_of_range hstep
          (listMin_le hmin _ (List.mem_map_of_mem key hb))
          (le_listMax hmax _ (List.mem_map_of_mem key hb)) ?_
        rw [← hkb0]
        exact hmod b b0
      have hK := sum_groups key
        ((List.range ((kmax - kmin) / step + 1)).map (fun i => kmin + i * step))
        (bins_nodup kmin step _ hstep) bars hcov
      rw [List.map_map] at hK
      exact hK

theorem dropna_resampleBy_volume_sum (key : PriceBar → ℕ) (step : ℕ)
    (bars : List PriceBar) (hstep : 0 < step)
    (hmod : ∀ x y : PriceBar, key x % step = key y % step) :
    ((dropna (resampleBy key step bars)).map (·.volume)).sum
      = (bars.map (·.volume)).sum := by
  have h0 : ∀ r ∈ resampleBy key step bars, dropnaRow r = none → r.volume = 0 := by
    intro r hr hnone
    have hstruct := mem_resampleBy hr
    have hfields := dropnaRow_none hnone
    rw [hstruct] at hfields
    have hempty := aggGroup_none_empty hfields
    rw [hstruct]
    simp [aggGroup, hempty]
  rw [dropna_volume_sum _ h0, resampleBy_volume_sum key step bars hstep hmod]

theorem aggGroup_fields_some {p : ℕ} {g : List PriceBar} (hg : g ≠ []) :
    ∃ o h l c, (aggGroup p g).«open» = some o ∧ (aggGroup p g).high = some h ∧
      (aggGroup p g).low = some l ∧ (aggGroup p g).close = some c := by
  rcases g with _ | ⟨x, xs⟩
  · exact absurd rfl hg
  · rcases listMax_of_ne_nil (l := (x :: xs).map (·.high)) (by simp) with ⟨m, hm⟩
    rcases listMin_of_ne_nil (l := (x :: xs).map (·.low)) (by simp) with ⟨m', hm'⟩
    refine ⟨x.«open», m, m', ((x :: xs).map (·.close)).getLast (by simp),
      ?_, ?_, ?_, ?_⟩
    · rfl
    · exact hm
    · exact hm'
    · show ((x :: xs).map (·.close)).getLast? = _
      exact List.getLast?_eq_getLast_of_ne_nil (by simp)

theorem sum_take_eq (l : List ℚ) (n : ℕ) (hn : n ≤ l.length) :
    (l.take n).sum = ∑ j ∈ Finset.range n, l.getD j 0 := by
  induction l generalizing n with
  | nil =>
    have h0 : n = 0 := Nat.le_zero.mp (by simpa using hn)
    subst h0
    simp
  | cons x xs ih =>
    cases n with
    | zero => simp
    | succ m =>
      rw [List.take_succ_cons, List.sum_cons, Finset.sum_range_succ']
      simp only [List.getD_cons_zero, List.getD_cons_succ]
      rw [ih m (Nat.le_of_succ_le_succ hn)]
      ring

theorem getD_drop (l : List ℚ) (a j : ℕ) :
    (l.drop a).getD j 0 = l.getD (a + j) 0 := by
  rw [List.getD_eq_getElem?_getD, List.getD_eq_getElem?_getD, List.getElem?_drop]

/-- Three trading days around the 2024-01-05 week boundary: Thursday 2024-01-04
and Friday 2024-01-05 fall in one `W-FRI` week, Monday 2024-01-08 in the next;
all three fall in one calendar month. -/
def sampleBars : List PriceBar :=
  [{ trade_date := ⟨2024, 1, 4⟩, «open» := 10, high := 12, low := 9, close := 11,
     volume := 100 },
   { trade_date := ⟨2024, 1, 5⟩, «open» := 11, high := 15, low := 10, close := 14,
     volume := 200 },
   { trade_date := ⟨2024, 1, 8⟩, «open» := 14, high := 16, low := 13, close := 15,
     volume := 50 }]

/-- C2: for both WEEKLY and MONTHLY resampling, the sum of the `volume` field
over all emitted aggregated bars equals the sum of `volume` over all input
price bars — resampling conserves volume, because the bins partition the bars
and every row dropped by `dropna()` is an empty bin of volume 0. -/
theorem C2_volume_conservation (gran : Granularity) (bars : List PriceBar) :
    ((resampleAt gran bars).map (·.volume)).sum = (bars.map (·.volume)).sum := by
  rw [resampleAt_eq]
  exact dropna_resampleBy_volume_sum (keyAt gran) (stepAt gran) bars
    (stepAt_pos gran) (keyAt_mod gran)

/-- C4: a LUMP_SUM projection invests `total_investment_cost = amount`, returns
`final_value = amount * (1+cagr)^years` and
`return_pct = (final_value - total_invested)/total_invested * 100`; at
`amount = 100000`, `cagr = 0.10`, `years = 3` the final value is exactly
`133100`. -/
theorem C4_lump_sum_projection (amount cagr : ℚ) (years : ℕ)
    (ha : 0 < amount) (hy : 0 < years) (hc : -1 < cagr) :
    (projectInvestment .lumpSum amount cagr years).total_investment_cost = amount ∧
    (projectInvestment .lumpSum amount cagr years).final_value
      = amount * (1 + cagr) ^ years ∧
    (projectInvestment .lumpSum amount cagr years).return_pct_calc
      = ((projectInvestment .lumpSum amount cagr years).final_value
          - (projectInvestment .lumpSum amount cagr years).total_investment_cost)
        / (projectInvestment .lumpSum amount cagr years).total_investment_cost * 100 ∧
    (projectInvestment .lumpSum 100000 (1/10) 3).final_value = 133100 := by
  refine ⟨rfl, rfl, rfl, ?_⟩
  norm_num [projectInvestment]

/-- Witness for C4 at `amount = 100000`, `cagr = 1/10`, `years = 3`. -/
theorem C4_lump_sum_projection_witness :
    (0 < (100000 : ℚ) ∧ 0 < 3 ∧ (-1 : ℚ) < 1/10) ∧
    ((projectInvestment .lumpSum 100000 (1/10) 3).total_investment_cost = 100000 ∧
     (projectInvestment .lumpSum 100000 (1/10) 3).final_value
       = 100000 * (1 + 1/10) ^ 3 ∧
     (projectInvestment .lumpSum 100000 (1/10) 3).return_pct_calc
       = ((projectInvestment .lumpSum 100000 (1/10) 3).final_value
           - (projectInvestment .lumpSum 100000 (1/10) 3).total_investment_cost)
         / (projectInvestment .lumpSum 100000 (1/10) 3).total_investment_cost * 100 ∧
     (projectInvestment .lumpSum 100000 (1/10) 3).final_value = 133100) :=
  ⟨⟨by norm_num, by norm_num, by norm_num⟩,
    C4_lump_sum_projection 100000 (1/10) 3 (by norm_num) (by norm_num) (by norm_num)⟩

/-- C5: a PERIODIC_MONTHLY projection invests
`total_investment_cost = amount * 12 * years`, compounds the whole cost from
day one (`final_value = cost * (1+cagr)^years`), and the page flags the
approximation (`st.warning` is issued: `warned = true`). -/
theorem C5_periodic_monthly_projection (amount cagr : ℚ) (years : ℕ)
    (ha : 0 < amount) (hy : 0 < years) (hc : -1 < cagr) :
    (projectInvestment .periodicMonthly amount cagr years).total_investment_cost
      = amount * 12 * (years : ℚ) ∧
    (projectInvestment .periodicMonthly amount cagr years).final_value
      = (projectInvestment .periodicMonthly amount cagr years).total_investment_cost
        * (1 + cagr) ^ years ∧
    (projectInvestment .periodicMonthly amount cagr years).warned = true :=
  ⟨rfl, rfl, rfl⟩

/-- Witness for C5 at `amount = 5000`, `cagr = 1/10`, `years = 3`. -/
theorem C5_periodic_monthly_projection_witness :
    (0 < (5000 : ℚ) ∧ 0 < 3 ∧ (-1 : ℚ) < 1/10) ∧
    ((projectInvestment .periodicMonthly 5000 (1/10) 3).total_investment_cost
       = 5000 * 12 * (3 : ℚ) ∧
     (projectInvestment .periodicMonthly 5000 (1/10) 3).final_value
       = (projectInvestment .periodicMonthly 5000 (1/10) 3).total_investment_cost
         * (1 + 1/10) ^ 3 ∧
     (projectInvestment .periodicMonthly 5000 (1/10) 3).warned = true) :=
  ⟨⟨by norm_num, by norm_num, by norm_num⟩,
    C5_periodic_monthly_projection 5000 (1/10) 3 (by norm_num) (by norm_num) (by norm_num)⟩

/-- C6 counterexample: the simulator performs no parameter validation; a
lump-sum call at `years = 0` returns an ordinary projection (cost and final
value both `100000`, zero return) instead of failing with
`InvalidParameterError` as the claim requires. -/
theorem C6_counterexample_years_zero :
    projectInvestmentRun .lumpSum 100000 (1/10) 0 =
      .ok { total_investment_cost := 100000, final_value := 100000,
            total_return_value := 0, return_pct_calc := 0, warned := false } := by
  norm_num [projectInvestmentRun, projectInvestment, Projection.mk.injEq]

/-- C6 amended: the simulator performs no parameter validation and
`InvalidParameterError` does not exist in the code. With `years = 0` and a
nonzero amount the lump-sum mode returns a normal projection whose final value
equals the invested cost with zero return; the only failure the computation
can produce is a `ZeroDivisionError` at the `return_pct_calc` division when
the invested cost is zero — the periodic mode with `years = 0`, or the
lump-sum mode with `amount = 0`. -/
theorem C6_amended_no_validation (amount cagr : ℚ) (ha : amount ≠ 0) :
    (∃ pr : Projection, projectInvestmentRun .lumpSum amount cagr 0 = .ok pr ∧
      pr.final_value = pr.total_investment_cost ∧
      pr.total_return_value = 0 ∧ pr.return_pct_calc = 0) ∧
    projectInvestmentRun .periodicMonthly amount cagr 0
      = .error PyError.zeroDivisionError ∧
    (∀ years : ℕ, projectInvestmentRun .lumpSum 0 cagr years
      = .error PyError.zeroDivisionError) := by
  refine ⟨⟨projectInvestment .lumpSum amount cagr 0, ?_, ?_, ?_, ?_⟩, ?_, ?_⟩
  · unfold projectInvestmentRun
    rw [if_neg (show (projectInvestment .lumpSum amount cagr 0).total_investment_cost
      ≠ 0 from ha)]
  · simp [projectInvestment]
  · simp [projectInvestment]
  · simp [projectInvestment]
  · unfold projectInvestmentRun
    rw [if_pos (show (projectInvestment .periodicMonthly amount cagr 0).total_investment_cost
      = 0 by simp [projectInvestment])]
  · intro years
    unfold projectInvestmentRun
    rw [if_pos (show (projectInvestment .lumpSum 0 cagr years).total_investment_cost
      = 0 from rfl)]

/-- Witness for the amended C6 at `amount = 100000`, `cagr = 1/10`. -/
theorem C6_amended_no_validation_witness :
    (100000 : ℚ) ≠ 0 ∧
    ((∃ pr : Projection, projectInvestmentRun .lumpSum 100000 (1/10) 0 = .ok pr ∧
        pr.final_value = pr.total_investment_cost ∧
        pr.total_return_value = 0 ∧ pr.return_pct_calc = 0) ∧
      projectInvestmentRun .periodicMonthly 100000 (1/10) 0
        = .error PyError.zeroDivisionError ∧
      (∀ years : ℕ, projectInvestmentRun .lumpSum 0 (1/10) years
        = .error PyError.zeroDivisionError)) :=
  ⟨by norm_num, C6_amended_no_validation 100000 (1/10) (by norm_num)⟩

/-- C9 counterexample: a database failure inside `get_etf_backtest_metrics` or
`get_etf_kline_data` is caught and silently converted to a placeholder (empty
dict, empty DataFrame) instead of being surfaced to the caller, contradicting
the claim that failures are never swallowed into placeholder values. -/
theorem C9_counterexample_error_swallowed :
    get_etf_backtest_metrics (Except.error "database connection failed") = none ∧
    get_etf_kline_data (Except.error "database connection failed")
      = ([] : List PriceBar) :=
  ⟨rfl, rfl⟩

/-- C9 amended: the data-access operations catch every failure and return a
placeholder value — `get_etf_backtest_metrics` returns the empty dict and
`get_etf_kline_data` the empty DataFrame — rather than surfacing the error to
the caller; no `InsufficientDataError`, `DegenerateSeriesError` or
`InvalidParameterError` is ever raised by the code. -/
theorem C9_amended_placeholder_on_failure (e : String) :
    get_etf_backtest_metrics (Except.error e) = none ∧
    get_etf_kline_data (Except.error e) = ([] : List PriceBar) :=
  ⟨rfl, rfl⟩

/-- C10: with the widget minimum `amount ≥ 1` and `years` drawn from
`PERIOD_MAP` (`{1, 3, 10}`), `total_investment_cost` is strictly positive in
both investment modes, so the division computing `return_pct_calc` never
divides by zero. -/
theorem C10_total_cost_positive (ty : InvestmentType) (amount cagr : ℚ) (years : ℕ)
    (ha : 1 ≤ amount) (hy : years ∈ PERIOD_MAP.map Prod.snd) :
    0 < (projectInvestment ty amount cagr years).total_investment_cost ∧
    (projectInvestment ty amount cagr years).total_investment_cost ≠ 0 := by
  have hapos : 0 < amount := lt_of_lt_of_le one_pos ha
  have hy3 : years = 1 ∨ years = 3 ∨ years = 10 := by
    simpa [PERIOD_MAP] using hy
  have hypos : 0 < (years : ℚ) := by
    rcases hy3 with rfl | rfl | rfl <;> norm_num
  have hpos : 0 < (projectInvestment ty amount cagr years).total_investment_cost := by
    cases ty
    · exact hapos
    · exact mul_pos (mul_pos hapos (by norm_num : (0 : ℚ) < 12)) hypos
  exact ⟨hpos, ne_of_gt hpos⟩

/-- Witness for C10 at `ty = lumpSum`, `amount = 1`, `cagr = 0`, `years = 1`. -/
theorem C10_total_cost_positive_witness :
    ((1 : ℚ) ≤ 1 ∧ 1 ∈ PERIOD_MAP.map Prod.snd) ∧
    (0 < (projectInvestment .lumpSum 1 0 1).total_investment_cost ∧
     (projectInvestment .lumpSum 1 0 1).total_investment_cost ≠ 0) :=
  ⟨⟨by norm_num, by simp [PERIOD_MAP]⟩,
    C10_total_cost_positive .lumpSum 1 0 1 (by norm_num) (by simp [PERIOD_MAP])⟩

/-- C1: for a non-empty daily series sorted ascending by date, weekly
resampling groups bars by the Friday-ending calendar week (`weekKey`) and
monthly resampling by calendar month (`monthKey`); within each group the
output bar's `open` is the earliest day's open, `close` the latest day's
close, `high` the maximum of the highs, `low` the minimum of the lows and
`volume` the sum of the volumes. -/
theorem C1_resample_group_aggregation (gran : Granularity) (bars : List PriceBar)
    (hne : bars ≠ []) (hs : bars.Pairwise dle) :
    ∀ a ∈ resampleAt gran bars,
      bars.filter (fun b => keyAt gran b = a.period) ≠ [] ∧
      (∃ f ∈ bars.filter (fun b => keyAt gran b = a.period),
        (∀ x ∈ bars.filter (fun b => keyAt gran b = a.period), dle f x) ∧
        a.«open» = f.«open») ∧
      (∃ l ∈ bars.filter (fun b => keyAt gran b = a.period),
        (∀ x ∈ bars.filter (fun b => keyAt gran b = a.period), dle x l) ∧
        a.close = l.close) ∧
      (∃ hb ∈ bars.filter (fun b => keyAt gran b = a.period), a.high = hb.high) ∧
      (∀ x ∈ bars.filter (fun b => keyAt gran b = a.period), x.high ≤ a.high) ∧
      (∃ lb ∈ bars.filter (fun b => keyAt gran b = a.period), a.low = lb.low) ∧
      (∀ x ∈ bars.filter (fun b => keyAt gran b = a.period), a.low ≤ x.low) ∧
      a.volume = ((bars.filter (fun b => keyAt gran b = a.period)).map (·.volume)).sum := by
  intro a ha
  rw [resampleAt_eq] at ha
  rcases mem_dropna_resampleBy ha with ⟨ho, hh, hl, hc, hv⟩
  have hpw : (bars.filter (fun b => keyAt gran b = a.period)).Pairwise dle :=
    hs.filter _
  constructor
  · intro hcon
    rw [hcon] at ho
    exact Option.noConfusion ho
  refine ⟨?_, ?_, ?_, ?_, ?_, ?_, hv⟩
  · rcases head?_map_pairwise hpw ho with ⟨f, hf, hfo, hfmin⟩
    exact ⟨f, hf, hfmin, hfo.symm⟩
  · rcases getLast?_map_pairwise hpw hc with ⟨l, hlm, hlc, hlmax⟩
    exact ⟨l, hlm, hlmax, hlc.symm⟩
  · rcases List.mem_map.mp (listMax_mem hh) with ⟨hb, hbm, hbe⟩
    exact ⟨hb, hbm, hbe.symm⟩
  · intro x hx
    exact le_listMax hh _ (List.mem_map_of_mem _ hx)
  · rcases List.mem_map.mp (listMin_mem hl) with ⟨lb, lbm, lbe⟩
    exact ⟨lb, lbm, lbe.symm⟩
  · intro x hx
    exact listMin_le hl _ (List.mem_map_of_mem _ hx)

/-- Witness for C1 on `sampleBars` at weekly granularity. -/
theorem C1_resample_group_aggregation_witness :
    (sampleBars ≠ [] ∧ sampleBars.Pairwise dle) ∧
    (∀ a ∈ resampleAt .weekly sampleBars,
      sampleBars.filter (fun b => keyAt .weekly b = a.period) ≠ [] ∧
      (∃ f ∈ sampleBars.filter (fun b => keyAt .weekly b = a.period),
        (∀ x ∈ sampleBars.filter (fun b => keyAt .weekly b = a.period), dle f x) ∧
        a.«open» = f.«open») ∧
      (∃ l ∈ sampleBars.filter (fun b => keyAt .weekly b = a.period),
        (∀ x ∈ sampleBars.filter (fun b => keyAt .weekly b = a.period), dle x l) ∧
        a.close = l.close) ∧
      (∃ hb ∈ sampleBars.filter (fun b => keyAt .weekly b = a.period), a.high = hb.high) ∧
      (∀ x ∈ sampleBars.filter (fun b => keyAt .weekly b = a.period), x.high ≤ a.high) ∧
      (∃ lb ∈ sampleBars.filter (fun b => keyAt .weekly b = a.period), a.low = lb.low) ∧
      (∀ x ∈ sampleBars.filter (fun b => keyAt .weekly b = a.period), a.low ≤ x.low) ∧
      a.volume =
        ((sampleBars.filter (fun b => keyAt .weekly b = a.period)).map (·.volume)).sum) :=
  ⟨⟨by decide, by decide⟩,
    C1_resample_group_aggregation .weekly sampleBars (by decide) (by decide)⟩

/-- C7: a calendar period containing no input bars produces no output row:
every output bar's group of contributing bars is non-empty, output periods are
pairwise distinct, and every non-empty group yields an output row — exactly
one aggregated bar per non-empty group, never a zero- or null-filled bar for
an empty period. -/
theorem C7_empty_periods_dropped (gran : Granularity) (bars : List PriceBar) :
    (∀ a ∈ resampleAt gran bars,
      bars.filter (fun b => keyAt gran b = a.period) ≠ []) ∧
    ((resampleAt gran bars).map (·.period)).Nodup ∧
    (∀ p : ℕ, bars.filter (fun b => keyAt gran b = p) ≠ [] →
      ∃ a ∈ resampleAt gran bars, a.period = p) := by
  refine ⟨?_, ?_, ?_⟩
  · intro a ha
    rw [resampleAt_eq] at ha
    rcases mem_dropna_resampleBy ha with ⟨ho, _, _, _, _⟩
    intro hcon
    rw [hcon] at ho
    exact Option.noConfusion ho
  · rw [resampleAt_eq]
    exact List.Nodup.sublist (dropna_periods_sublist _)
      (resampleBy_periods_nodup (keyAt gran) (stepAt gran) bars (stepAt_pos gran))
  · intro p hne
    rw [resampleAt_eq]
    have hmem := resampleBy_covers (stepAt_pos gran) (keyAt_mod gran) hne
    rcases aggGroup_fields_some (p := p) hne with ⟨o, h, l, c, ho, hh, hl, hc⟩
    exact ⟨_, mem_dropna.mpr ⟨_, hmem, dropnaRow_of_some ho hh hl hc⟩, rfl⟩

/-- C3: `movingAverage` returns a sequence of the same length as the input;
the first `window - 1` entries carry no numeric value (`none`, not zero); and
every entry at index `i ≥ window - 1` is the arithmetic mean of the inputs at
indices `i - window + 1` through `i`. Each window is computed independently by
a separate call. -/
theorem C3_moving_average (closes : List ℚ) (window : ℕ) (hw : 1 ≤ window) :
    (movingAverage closes window).length = closes.length ∧
    (∀ i, i < closes.length → i + 1 < window →
      (movingAverage closes window)[i]? = some none) ∧
    (∀ i, i < closes.length → window ≤ i + 1 →
      (movingAverage closes window)[i]? =
        some (some ((∑ j ∈ Finset.range window,
          closes.getD (i + 1 - window + j) 0) / (window : ℚ)))) := by
  refine ⟨by simp [movingAverage], ?_, ?_⟩
  · intro i hi hiw
    unfold movingAverage
    rw [List.getElem?_map, List.getElem?_range hi]
    simp [Nat.not_le.mpr hiw]
  · intro i hi hwi
    unfold movingAverage
    rw [List.getElem?_map, List.getElem?_range hi]
    have hlen : window ≤ (closes.drop (i + 1 - window)).length := by
      rw [List.length_drop]
      omega
    have hsum : ((closes.drop (i + 1 - window)).take window).sum
        = ∑ j ∈ Finset.range window, closes.getD (i + 1 - window + j) 0 := by
      rw [sum_take_eq _ window hlen]
      exact Finset.sum_congr rfl (fun j _ => getD_drop closes (i + 1 - window) j)
    simp [hwi, hsum]

/-- Witness for C3 at `closes = [2, 4, 6]`, `window = 2`. -/
theorem C3_moving_average_witness :
    1 ≤ 2 ∧
    ((movingAverage [2, 4, 6] 2).length = ([2, 4, 6] : List ℚ).length ∧
     (∀ i, i < ([2, 4, 6] : List ℚ).length → i + 1 < 2 →
       (movingAverage [2, 4, 6] 2)[i]? = some none) ∧
     (∀ i, i < ([2, 4, 6] : List ℚ).length → 2 ≤ i + 1 →
       (movingAverage [2, 4, 6] 2)[i]? =
         some (some ((∑ j ∈ Finset.range 2,
           ([2, 4, 6] : List ℚ).getD (i + 1 - 2 + j) 0) / (2 : ℚ))))) :=
  ⟨by decide, C3_moving_average [2, 4, 6] 2 (by decide)⟩

/-- C8: the daily branch of the trend page is the identity on a non-empty
sorted series — `df_resampled = df`, and `dropna()` removes nothing because
daily bars carry no missing values. -/
theorem C8_daily_identity (bars : List PriceBar) (hne : bars ≠ [])
    (hs : bars.Pairwise dle) : resampleDaily bars = bars := rfl

/-- Witness for C8 on `sampleBars`. -/
theorem C8_daily_identity_witness :
    (sampleBars ≠ [] ∧ sampleBars.Pairwise dle) ∧
    resampleDaily sampleBars = sampleBars :=
  ⟨⟨by decide, by decide⟩, C8_daily_identity sampleBars (by decide) (by decide)⟩

end EtfApp
